import Mathlib

/-!
# EdgeDB core — verification development

A shallow embedding of the EdgeDB graph store core (Go) in Lean 4:

* the dynamic property model (Go `map[string]any` with string / int /
  float64 / bool / nil / nested-map values) and its JSON (de)serialization
  (`models.Properties.ToBytes` / `FromBytes`, i.e. `encoding/json`
  marshal/unmarshal, modelled at the granularity of the JSON document the
  bytes denote; `json.Marshal` sorts object keys, `json.Unmarshal` into
  `map[string]any` decodes every number as `float64`);
* the flattening of a property bag into key/value tokens for full-text
  indexing (`internal/store/json.go`: `FlattenMAP`, `Keys`, `Values`);
* the sqlite-backed node store (`internal/store/sqlite/db.go`:
  `UpsertNodes`, `Nodes`, `NodesTermSearch` argument normalization) over
  the schema of `migrations/000001_nodes_and_edges_table_create.up.sql`
  (nodes table with `id INTEGER PRIMARY KEY AUTOINCREMENT`, an FTS5 table
  filled by the `AFTER INSERT` trigger via the registered SQL functions
  `json_extract_keys` / `json_extract_values`, and cleared by the
  `AFTER DELETE` trigger).

SQLite itself is an external engine; the observable behaviour used here
(full scans return rows in ascending rowid order, an AUTOINCREMENT id is
one larger than the largest id ever recorded in `sqlite_sequence`, a
negative `LIMIT` means "no limit", `ON CONFLICT(id) DO UPDATE` fires no
insert trigger) follows the engine's documented and tested semantics.
-/

namespace EdgeDB

/-! ## The dynamic property model

Go `models.Properties` is `map[string]any`.  A value of type `any` held in
a property bag is, in every use in this repository, a string, an integer,
a `float64`, a bool, `nil`, or a nested `map[string]any`; any other value
(a channel, a function, ...) cannot be JSON-marshalled and is kept
abstract as `vUnsupported` together with its `fmt` rendering.  Float
values carry integral values in this development (a JSON number is
modelled by the integer it denotes; binary rounding of doubles is out of
scope).  A Go map is unordered, so a bag is represented as a sequence of
key/value entries and theorems quantify over the entry order, covering
every iteration order the runtime may pick. -/

mutual

inductive GoValue where
  | vString (s : String)
  | vInt (n : Int)
  | vFloat (n : Int)
  | vBool (b : Bool)
  | vNull
  | vMap (m : GoBag)
  | vUnsupported (tag : String) (rendered : String)

inductive GoBag where
  | nil
  | cons (key : String) (val : GoValue) (rest : GoBag)

end

/-- Go type `models.Properties` (and `internal/store.Properties`). -/
abbrev Properties := GoBag

/-- Entries of a bag as a list of pairs (the map's key/value pairs). -/
def GoBag.toList : GoBag → List (String × GoValue)
  | .nil => []
  | .cons k v rest => (k, v) :: rest.toList

/-- Builds a bag from a list of key/value pairs. -/
def GoBag.ofList : List (String × GoValue) → GoBag
  | [] => .nil
  | (k, v) :: rest => .cons k v (GoBag.ofList rest)

/-- Rendering `fmt.Sprintf("%v", v)` of a dynamic scalar value, as used by
the token extraction in `internal/store/json.go` (`Values`). -/
def goRender : GoValue → String
  | .vString s => s
  | .vInt n => toString n
  | .vFloat n => toString n
  | .vBool b => if b then "true" else "false"
  | .vNull => "<nil>"
  | .vMap _ => ""
  | .vUnsupported _ r => r

/-- Tests whether the dynamic value is a nested map
(`reflect.Kind() == reflect.Map`). -/
def GoValue.isMap : GoValue → Bool
  | .vMap _ => true
  | _ => false

/-! ## Token extraction (`internal/store/json.go`)

The function `Keys` walks the map; for each entry it emits the dotted full
key and, when the value is itself a map, recurses with the full key as
prefix.  The function `Values` walks the map; `nil` values are skipped
(`val.Kind() == reflect.Interface && val.IsNil()`), nested maps are
recursed into without emitting a token of their own, and every other
value is rendered with `%v`. -/

mutual

/-- Contribution of one entry value to the key tokens: a nested map is
walked under the entry's dotted key, anything else adds nothing. -/
def keysVal (fullKey : String) : GoValue → List String
  | .vMap inner => keysAux fullKey inner
  | _ => []

/-- The walker closure of `Keys`: key tokens of a map under a dotted
path. -/
def keysAux (pre : String) : GoBag → List String
  | .nil => []
  | .cons k v rest =>
    let fullKey := if pre = "" then k else pre ++ "." ++ k
    (fullKey :: keysVal fullKey v) ++ keysAux pre rest

end

/-- Function `store.Keys`: all dotted key tokens of a property map. -/
def Keys (m : Properties) : List String := keysAux "" m

mutual

/-- Contribution of one entry value to the value tokens: a nested map is
recursed into, a `nil` value is skipped, any other value is rendered. -/
def valuesVal : GoValue → List String
  | .vMap inner => valuesBag inner
  | .vNull => []
  | x => [goRender x]

/-- The walker closure of `Values`. -/
def valuesBag : GoBag → List String
  | .nil => []
  | .cons _ v rest => valuesVal v ++ valuesBag rest

end

/-- Function `store.Values`: all scalar value tokens of a property map. -/
def Values (m : Properties) : List String := valuesBag m

/-- Go `strings.Join(elems, sep)`. -/
def joinSep (sep : String) : List String → String
  | [] => ""
  | [x] => x
  | x :: xs => x ++ sep ++ joinSep sep xs

/-- Go `sort.StringSlice(xs).Sort()`: ascending lexicographic sort.  A
sort of strings is determined by its output being an ordered permutation
of its input (equal strings are identical), so any correct sorting
algorithm is an exact model. -/
def sortStrings (l : List String) : List String := List.insertionSort (· ≤ ·) l

/-- Function `store.FlattenMAP`: sorts the key tokens and the value tokens
and joins each with single spaces. -/
def FlattenMAP (m : Properties) : String × String :=
  (joinSep " " (sortStrings (Keys m)), joinSep " " (sortStrings (Values m)))

example :
    Keys (.cons "name" (.vString "foo")
      (.cons "meta" (.vMap (.cons "age" (.vInt 21)
        (.cons "hair" (.vMap (.cons "colour" (.vString "brown") .nil)) .nil))) .nil)) =
      ["name", "meta", "meta.age", "meta.hair", "meta.hair.colour"] := rfl

example :
    Values (.cons "name" (.vString "foo")
      (.cons "meta" (.vMap (.cons "age" (.vInt 21)
        (.cons "hair" (.vMap (.cons "colour" (.vString "brown") .nil)) .nil))) .nil)) =
      ["foo", "21", "brown"] := rfl

example : FlattenMAP .nil = ("", "") := rfl

/-! ## JSON serialization (`encoding/json` via `models.Properties.ToBytes`
and `Properties.FromBytes`)

The byte slices (`json.RawMessage`) produced and consumed by the store are
modelled at the granularity of the JSON document they denote; the text
layer is the external `encoding/json` library.  `json.Marshal` on a Go
map emits the object's fields in ascending key order and fails on
unsupported values; `json.Unmarshal` into `map[string]any` decodes every
JSON number as `float64` and fails when the document is not an object. -/

mutual

inductive Json where
  | jString (s : String)
  | jNum (n : Int)
  | jBool (b : Bool)
  | jNull
  | jObj (fields : JsonFields)

inductive JsonFields where
  | fnil
  | fcons (key : String) (val : Json) (rest : JsonFields)

end

/-- Fields of a JSON object as a list of pairs. -/
def JsonFields.toList : JsonFields → List (String × Json)
  | .fnil => []
  | .fcons k v rest => (k, v) :: rest.toList

/-- Builds JSON object fields from a list of pairs. -/
def JsonFields.ofList : List (String × Json) → JsonFields
  | [] => .fnil
  | (k, v) :: rest => .fcons k v (JsonFields.ofList rest)

instance decLeKeyJson : DecidableRel (fun a b : String × Json => a.1 ≤ b.1) :=
  fun a b => String.decidableLE a.1 b.1

/-- Ascending sort of JSON object fields by key, as performed by
`json.Marshal` on a Go map. -/
def sortFields (l : List (String × Json)) : List (String × Json) :=
  List.insertionSort (fun a b => a.1 ≤ b.1) l

mutual

/-- Marshalling of one dynamic value (`json.Marshal`).  Unsupported
values (channels, functions, ...) produce an error. -/
def jsonMarshalValue : GoValue → Except String Json
  | .vString s => .ok (.jString s)
  | .vInt n => .ok (.jNum n)
  | .vFloat n => .ok (.jNum n)
  | .vBool b => .ok (.jBool b)
  | .vNull => .ok .jNull
  | .vMap m =>
    match jsonMarshalBag m with
    | .ok fields => .ok (.jObj (JsonFields.ofList (sortFields fields)))
    | .error e => .error e
  | .vUnsupported tag _ => .error ("json: unsupported type: " ++ tag)

/-- Marshalling of the entries of a map, in iteration order (the caller
sorts the result by key). -/
def jsonMarshalBag : GoBag → Except String (List (String × Json))
  | .nil => .ok []
  | .cons k v rest =>
    match jsonMarshalValue v, jsonMarshalBag rest with
    | .ok j, .ok fs => .ok ((k, j) :: fs)
    | .error e, _ => .error e
    | .ok _, .error e => .error e

end

mutual

/-- Decoding of one JSON value into a Go `any` (`json.Unmarshal`): every
number becomes a `float64`. -/
def jsonUnmarshalValue : Json → GoValue
  | .jString s => .vString s
  | .jNum n => .vFloat n
  | .jBool b => .vBool b
  | .jNull => .vNull
  | .jObj fields => .vMap (jsonUnmarshalFields fields)

/-- Decoding of the fields of a JSON object into map entries. -/
def jsonUnmarshalFields : JsonFields → GoBag
  | .fnil => .nil
  | .fcons k v rest => .cons k (jsonUnmarshalValue v) (jsonUnmarshalFields rest)

end

/-- Method `Properties.ToBytes`: `json.Marshal(p)` (a map marshals to a
JSON object). -/
def Properties.ToBytes (p : Properties) : Except String Json :=
  jsonMarshalValue (.vMap p)

/-- Method `Properties.FromBytes`: `json.Unmarshal(b, &p)` into a
`map[string]any`; fails when the document is not an object. -/
def Properties.FromBytes (b : Json) : Except String Properties :=
  match b with
  | .jObj fields => .ok (jsonUnmarshalFields fields)
  | _ => .error "json: cannot unmarshal value into Go value of type map[string]interface {}"

/-- Tests whether a JSON document is an object. -/
def Json.isObj : Json → Bool
  | .jObj _ => true
  | _ => false

mutual

/-- Tests whether a dynamic value can be JSON-marshalled. -/
def encodableValue : GoValue → Bool
  | .vUnsupported _ _ => false
  | .vMap m => encodableBag m
  | _ => true

/-- Tests whether every value of a bag can be JSON-marshalled. -/
def encodableBag : GoBag → Bool
  | .nil => true
  | .cons _ v rest => encodableValue v && encodableBag rest

end

/-- Ascending sort of bag entries by key. -/
def sortEntries (l : List (String × GoValue)) : List (String × GoValue) :=
  List.insertionSort (fun a b => a.1 ≤ b.1) l

mutual

/-- Numeric normalization combined with the canonical key ordering the
encode/decode round trip produces: integers become floats and every map's
entries come back in ascending key order. -/
def canonNormValue : GoValue → GoValue
  | .vString s => .vString s
  | .vInt n => .vFloat n
  | .vFloat n => .vFloat n
  | .vBool b => .vBool b
  | .vNull => .vNull
  | .vMap m => .vMap (GoBag.ofList (sortEntries (canonNormEntries m)))
  | .vUnsupported tag r => .vUnsupported tag r

/-- Entrywise numeric normalization of a bag, keeping entry order. -/
def canonNormEntries : GoBag → List (String × GoValue)
  | .nil => []
  | .cons k v rest => (k, canonNormValue v) :: canonNormEntries rest

end

/-- Canonically sorted, numerically normalized form of a bag. -/
def canonNormBag (b : GoBag) : GoBag :=
  GoBag.ofList (sortEntries (canonNormEntries b))

/-! Structural equality of bags up to numeric-type normalization: two bags
are related when they have the same keys (as unordered maps) and the
corresponding values are equal except that an integer on the right may
appear as the equal-valued float on the left.  The relation mirrors
`List.Perm` on map entries. -/

mutual

inductive ValEqNorm : GoValue → GoValue → Prop where
  | refl (v : GoValue) : ValEqNorm v v
  | intFloat (n : Int) : ValEqNorm (.vFloat n) (.vInt n)
  | map {m₁ m₂ : GoBag} : BagEqNorm m₁ m₂ → ValEqNorm (.vMap m₁) (.vMap m₂)

inductive BagEqNorm : GoBag → GoBag → Prop where
  | nil : BagEqNorm .nil .nil
  | cons (k : String) {v₁ v₂ : GoValue} {r₁ r₂ : GoBag} :
      ValEqNorm v₁ v₂ → BagEqNorm r₁ r₂ →
      BagEqNorm (.cons k v₁ r₁) (.cons k v₂ r₂)
  | swap (k₁ k₂ : String) (v₁ v₂ : GoValue) (r : GoBag) :
      BagEqNorm (.cons k₁ v₁ (.cons k₂ v₂ r)) (.cons k₂ v₂ (.cons k₁ v₁ r))
  | trans {b₁ b₂ b₃ : GoBag} :
      BagEqNorm b₁ b₂ → BagEqNorm b₂ b₃ → BagEqNorm b₁ b₃

end

/-! ## The sqlite node store (`internal/store/sqlite/db.go` over the
schema of `migrations/000001_nodes_and_edges_table_create.up.sql`)

The nodes base table (`id INTEGER PRIMARY KEY AUTOINCREMENT, label TEXT
NOT NULL, properties JSON NOT NULL`) is a B-tree keyed by `id`, modelled
as a list of rows kept in ascending id order — the order in which the
engine scans it.  `sqlite_sequence` (field `seq`) records the largest id
ever used; `DELETE` never lowers it, which is what makes AUTOINCREMENT
ids monotonic and never reused.  The FTS5 index table is filled by the
`AFTER INSERT` trigger `node_fts_insert` and cleared by the
`AFTER DELETE` trigger `nodes_after_delete`; `ON CONFLICT(id) DO UPDATE`
performs an update, which fires neither of them. -/

structure NodeRow where
  id : Nat
  label : String
  properties : Json

structure FtsRow where
  id : Nat
  label : String
  prop_keys : String
  prop_values : String

structure DBState where
  rows : List NodeRow
  fts : List FtsRow
  seq : Nat

/-- Go struct `models.Node` (`ID uint64`, `Label string`,
`Properties Properties`); both the upsert input and the record returned
to the caller. -/
structure Node where
  ID : Nat
  Label : String
  Properties : Properties

/-- Modelled from the spec: the helpers `common.Keys` and `common.Values`
of package `pkg/common` are not under `src/` (only their caller
`registerFuncs` in `db.go` is).  Per the specification of the lexical
index they extract the property bag's key tokens, in map-iteration
order. -/
def commonKeys (m : Properties) : List String := Keys m

/-- Modelled from the spec: `common.Values` of the missing package
`pkg/common`, extracting the bag's scalar value tokens in map-iteration
order. -/
def commonValues (m : Properties) : List String := Values m

/-- Registered SQL function `json_extract_keys` (`registerFuncs` in
`db.go`): unmarshal the JSON payload into a `map[string]any` and join the
extracted key tokens with commas. -/
def jsonExtractKeys (j : Json) : Except String String :=
  match Properties.FromBytes j with
  | .ok props => .ok (joinSep "," (commonKeys props))
  | .error e => .error ("error unmarshalling JSON: " ++ e)

/-- Registered SQL function `json_extract_values`: unmarshal the JSON
payload and join the extracted value tokens with commas. -/
def jsonExtractValues (j : Json) : Except String String :=
  match Properties.FromBytes j with
  | .ok props => .ok (joinSep "," (commonValues props))
  | .error e => .error ("error unmarshalling JSON: " ++ e)

/-- Insertion of a row into the id-ordered B-tree. -/
def insertSorted (r : NodeRow) : List NodeRow → List NodeRow
  | [] => [r]
  | x :: xs => if r.id < x.id then r :: x :: xs else x :: insertSorted r xs

/-- Largest id currently in the table. -/
def maxRowId (rows : List NodeRow) : Nat :=
  rows.foldr (fun r acc => max r.id acc) 0

/-- The id AUTOINCREMENT assigns to an insert with a NULL id: one larger
than the largest id ever used (the larger of `sqlite_sequence` and the
largest existing rowid). -/
def nextAutoId (st : DBState) : Nat := max st.seq (maxRowId st.rows) + 1

/-- One iteration of the loop body of `Store.UpsertNodes`: marshal the
record's properties, run the single `INSERT ... ON CONFLICT(id) DO
UPDATE ... RETURNING` statement (with a NULL id when `n.ID <= 0`),
let the FTS triggers fire, scan the returned row and unmarshal its
properties.  Any error aborts the statement (and, at the call site, the
whole transaction). -/
def upsertNodeStep (st : DBState) (n : Node) : Except String (Node × DBState) :=
  match Properties.ToBytes n.Properties with
  | .error e => .error e
  | .ok props =>
    match Properties.FromBytes props with
    | .error e => .error e
    | .ok decoded =>
      if n.ID = 0 then
        -- NULL id: fresh insert at the AUTOINCREMENT id, insert trigger fires
        let newId := nextAutoId st
        let row : NodeRow := ⟨newId, n.Label, props⟩
        match jsonExtractKeys props, jsonExtractValues props with
        | .ok ks, .ok vs =>
          .ok (⟨newId, n.Label, decoded⟩,
            ⟨insertSorted row st.rows, st.fts ++ [⟨newId, n.Label, ks, vs⟩], max st.seq newId⟩)
        | .error e, _ => .error e
        | .ok _, .error e => .error e
      else if st.rows.any (fun r => r.id = n.ID) then
        -- conflict: DO UPDATE replaces label/properties in place; no insert
        -- trigger fires and the sequence is untouched
        let row : NodeRow := ⟨n.ID, n.Label, props⟩
        .ok (⟨n.ID, n.Label, decoded⟩,
          ⟨st.rows.map (fun r => if r.id = n.ID then row else r), st.fts, st.seq⟩)
      else
        -- fresh insert at the caller's id, insert trigger fires
        let row : NodeRow := ⟨n.ID, n.Label, props⟩
        match jsonExtractKeys props, jsonExtractValues props with
        | .ok ks, .ok vs =>
          .ok (⟨n.ID, n.Label, decoded⟩,
            ⟨insertSorted row st.rows, st.fts ++ [⟨n.ID, n.Label, ks, vs⟩], max st.seq n.ID⟩)
        | .error e, _ => .error e
        | .ok _, .error e => .error e

/-- The loop of `Store.UpsertNodes` inside the open transaction: each
record is written in turn; the first error aborts. -/
def upsertLoop (st : DBState) : List Node → Except String (List Node × DBState)
  | [] => .ok ([], st)
  | n :: rest =>
    match upsertNodeStep st n with
    | .error e => .error e
    | .ok (node, st₁) =>
      match upsertLoop st₁ rest with
      | .error e => .error e
      | .ok (nodes, st₂) => .ok (node :: nodes, st₂)

/-- Method `Store.UpsertNodes`: one transaction per call — `tx.Commit()`
on success, the deferred `tx.Rollback()` discards every write of the
batch on error.  (On error Go also returns the partially filled result
slice alongside the non-nil error; only the error is modelled.) -/
def UpsertNodes (st : DBState) (ns : List Node) : Except String (List Node) × DBState :=
  match upsertLoop st ns with
  | .ok (nodes, st₁) => (.ok nodes, st₁)
  | .error e => (.error e, st)

/-- Constant `DefaultLimit`: the default number of items to return. -/
def DefaultLimit : Int := 1000

/-- Go struct `store.NodesArgs` (`Limit int`). -/
structure NodesArgs where
  Limit : Int

/-- Go struct `store.TermSearchArgs`. -/
structure TermSearchArgs where
  Term : String
  Limit : Int
  SnippetTokens : Int
  SnippetStart : String
  SnippetEnd : String

/-- Argument normalization prelude of `Store.NodesTermSearch`: a zero
limit becomes `DefaultLimit`, a negative snippet token window becomes 10,
a window above 64 is clamped to 64, empty snippet markers get their
defaults. -/
def normalizeTermSearchArgs (args : TermSearchArgs) : TermSearchArgs :=
  let args := if args.Limit = 0 then { args with Limit := DefaultLimit } else args
  let args := if args.SnippetTokens < 0 then { args with SnippetTokens := 10 } else args
  let args := if args.SnippetTokens > 64 then { args with SnippetTokens := 64 } else args
  let args := if args.SnippetStart = "" then
    { args with SnippetStart := "<span class=\"text-red-500\">" } else args
  if args.SnippetEnd = "" then { args with SnippetEnd := "</span>" } else args

/-- Limit handling of `Store.Nodes`: a zero limit becomes
`DefaultLimit`; nothing else is changed. -/
def nodesEffectiveLimit (limit : Int) : Int :=
  if limit = 0 then DefaultLimit else limit

/-- A SQL `LIMIT l` over a scan: a negative limit means no limit. -/
def applyLimit (l : Int) (rows : List NodeRow) : List NodeRow :=
  if l < 0 then rows else rows.take l.toNat

/-- Row scan of `Store.Nodes`: `SELECT ... FROM nodes LIMIT ?` — a full
scan in ascending id order truncated by the effective limit; no ORDER BY
and no ranking expression appear in the query. -/
def nodesScan (st : DBState) (args : NodesArgs) : List NodeRow :=
  applyLimit (nodesEffectiveLimit args.Limit) st.rows

/-- The scan loop of `Store.Nodes`: each row's properties are unmarshalled;
an undecodable row stops the loop, returning the rows read so far and the
error. -/
def decodeNodes : List NodeRow → List Node × Option String
  | [] => ([], none)
  | r :: rest =>
    match Properties.FromBytes r.properties with
    | .ok p =>
      let (ns, e) := decodeNodes rest
      (⟨r.id, r.label, p⟩ :: ns, e)
    | .error e => ([], some e)

/-- Method `Store.Nodes`: the plain listing read path. -/
def Nodes (st : DBState) (args : NodesArgs) : List Node × Option String :=
  decodeNodes (nodesScan st args)

/-- SQL `DELETE FROM nodes WHERE id = ?` under the schema's triggers: the
row disappears, the `AFTER DELETE` trigger removes the FTS entry, and
`sqlite_sequence` is untouched. -/
def deleteNode (st : DBState) (i : Nat) : DBState :=
  ⟨st.rows.filter (fun r => r.id ≠ i), st.fts.filter (fun r => r.id ≠ i), st.seq⟩

/-- Well-formedness of a store state: rows ascend strictly by id, every
id is positive, and `sqlite_sequence` dominates every id in the table. -/
def WF (st : DBState) : Prop :=
  List.Pairwise (fun a b => a.id < b.id) st.rows ∧
    ∀ r ∈ st.rows, 0 < r.id ∧ r.id ≤ st.seq ∧ r.properties.isObj = true

instance : DecidablePred WF := fun st => by
  unfold WF; infer_instance

/-- The store operations a caller can drive the state with. -/
inductive Op where
  | upsert (ns : List Node)
  | delete (i : Nat)

/-- Effect of one operation on the store state. -/
def applyOp (st : DBState) : Op → DBState
  | .upsert ns => (UpsertNodes st ns).2
  | .delete i => deleteNode st i

/-- The store as created by the migrations: empty tables, sequence 0. -/
def emptyDB : DBState := ⟨[], [], 0⟩

/-- State reached from `st` by a sequence of operations. -/
def runOps (st : DBState) (ops : List Op) : DBState := ops.foldl applyOp st

/-- Every id that is ever present in the table at any point while running
`ops` from `st` (including in `st` itself). -/
def usedIds (st : DBState) : List Op → List Nat
  | [] => st.rows.map (fun r => r.id)
  | op :: rest => st.rows.map (fun r => r.id) ++ usedIds (applyOp st op) rest

/-! ## Helper lemmas: sorting, joining, counting -/

theorem sortStrings_perm (l : List String) : (sortStrings l).Perm l :=
  List.perm_insertionSort _ l

theorem sortStrings_sorted (l : List String) :
    List.Sorted (· ≤ ·) (sortStrings l) :=
  List.sorted_insertionSort _ l

/-- Occurrences of a character in a string. -/
def countChar (c : Char) (s : String) : Nat := s.data.count c

theorem countChar_append (c : Char) (a b : String) :
    countChar c (a ++ b) = countChar c a + countChar c b := by
  simp [countChar, String.data_append, List.count_append]

theorem countChar_joinSep (c : Char) (sep : String) :
    ∀ l : List String,
      countChar c (joinSep sep l) =
        (l.map (countChar c)).sum + (l.length - 1) * countChar c sep
  | [] => by simp [joinSep, countChar]
  | [x] => by simp [joinSep]
  | x :: y :: ys => by
    have ih := countChar_joinSep c sep (y :: ys)
    simp only [joinSep, countChar_append, ih, List.map_cons, List.sum_cons,
      List.length_cons, Nat.add_sub_cancel]
    ring

theorem perm_map_sum_countChar (c : Char) {l₁ l₂ : List String} (h : l₁.Perm l₂) :
    (l₁.map (countChar c)).sum = (l₂.map (countChar c)).sum :=
  (h.map (countChar c)).sum_eq

/-- Joining two or more tokens with commas never yields the same string as
sorting any permutation of the same tokens and joining them with spaces:
the two strings contain a different number of commas. -/
theorem joinComma_ne_joinSpace_sorted {l tokens : List String}
    (hperm : l.Perm tokens) (hlen : 2 ≤ l.length) :
    joinSep "," l ≠ joinSep " " (sortStrings tokens) := by
  intro heq
  have hc : countChar ',' (joinSep "," l) =
      countChar ',' (joinSep " " (sortStrings tokens)) := by rw [heq]
  rw [countChar_joinSep, countChar_joinSep] at hc
  have hsum : ((sortStrings tokens).map (countChar ',')).sum =
      (l.map (countChar ',')).sum :=
    perm_map_sum_countChar ',' ((sortStrings_perm tokens).trans hperm.symm)
  have hcomma : countChar ',' "," = 1 := rfl
  have hspace : countChar ',' " " = 0 := rfl
  rw [hcomma, hspace, hsum] at hc
  omega

/-! ## C5 and C6: the flattening algorithm -/

/-- C5: for every property map, FlattenMAP returns the key tokens and the
value tokens each sorted lexicographically (an ordered permutation of
`Keys m` resp. `Values m`) joined by single spaces, and flattening the
empty (or Go `nil`) map yields two empty strings. -/
theorem flattenMAP_sorted_spaceJoined (m : Properties) :
    (∃ ks, ks.Perm (Keys m) ∧ List.Sorted (· ≤ ·) ks ∧
        (FlattenMAP m).1 = joinSep " " ks) ∧
    (∃ vs, vs.Perm (Values m) ∧ List.Sorted (· ≤ ·) vs ∧
        (FlattenMAP m).2 = joinSep " " vs) ∧
    FlattenMAP .nil = ("", "") :=
  ⟨⟨sortStrings (Keys m), sortStrings_perm _, sortStrings_sorted _, rfl⟩,
   ⟨sortStrings (Values m), sortStrings_perm _, sortStrings_sorted _, rfl⟩,
   rfl⟩

mutual

/-- Scalar leaves contributed by one entry value: a nested map contributes
its own leaves, a `nil` contributes nothing, anything else is itself a
leaf. -/
def leafVals : GoValue → List GoValue
  | .vMap inner => leafBag inner
  | .vNull => []
  | x => [x]

/-- All scalar leaves of a bag, in walk order. -/
def leafBag : GoBag → List GoValue
  | .nil => []
  | .cons _ v rest => leafVals v ++ leafBag rest

end

mutual

theorem valuesVal_eq_leaves : ∀ v : GoValue, valuesVal v = (leafVals v).map goRender
  | .vString _ => rfl
  | .vInt _ => rfl
  | .vFloat _ => rfl
  | .vBool _ => rfl
  | .vNull => rfl
  | .vMap inner => valuesBag_eq_leaves inner
  | .vUnsupported _ _ => rfl

theorem valuesBag_eq_leaves : ∀ b : GoBag, valuesBag b = (leafBag b).map goRender
  | .nil => rfl
  | .cons _ v rest => by
    rw [valuesBag, leafBag, List.map_append, valuesVal_eq_leaves v,
      valuesBag_eq_leaves rest]

end

mutual

theorem leafVals_not_map : ∀ v : GoValue, ∀ x ∈ leafVals v, x.isMap = false
  | .vString _ => by simp [leafVals, GoValue.isMap]
  | .vInt _ => by simp [leafVals, GoValue.isMap]
  | .vFloat _ => by simp [leafVals, GoValue.isMap]
  | .vBool _ => by simp [leafVals, GoValue.isMap]
  | .vNull => by simp [leafVals]
  | .vMap inner => leafBag_not_map inner
  | .vUnsupported _ _ => by simp [leafVals, GoValue.isMap]

theorem leafBag_not_map : ∀ b : GoBag, ∀ x ∈ leafBag b, x.isMap = false
  | .nil => by simp [leafBag]
  | .cons _ v rest => by
    intro x hx
    rw [leafBag, List.mem_append] at hx
    rcases hx with hx | hx
    · exact leafVals_not_map v x hx
    · exact leafBag_not_map rest x hx

end

theorem string_append_dot_ne_empty (a b : String) : a ++ "." ++ b ≠ "" := by
  intro h
  have hdot : ("." : String).length = 1 := rfl
  have : (a ++ "." ++ b).length = a.length + 1 + b.length := by
    simp [String.length_append, hdot]
  rw [h] at this
  simp at this
  omega

mutual

/-- Key tokens contributed by a value walked under a non-empty dotted path
all extend that path by a dot. -/
theorem keysVal_extends_path : ∀ (fk : String) (v : GoValue), fk ≠ "" →
    ∀ t ∈ keysVal fk v, ∃ s, t = fk ++ "." ++ s
  | fk, .vMap inner, hp => keysAux_extends_path fk inner hp
  | _, .vString _, _ => by simp [keysVal]
  | _, .vInt _, _ => by simp [keysVal]
  | _, .vFloat _, _ => by simp [keysVal]
  | _, .vBool _, _ => by simp [keysVal]
  | _, .vNull, _ => by simp [keysVal]
  | _, .vUnsupported _ _, _ => by simp [keysVal]

/-- Key tokens produced under a non-empty dotted path all extend that path
by a dot. -/
theorem keysAux_extends_path : ∀ (pre : String) (b : GoBag), pre ≠ "" →
    ∀ t ∈ keysAux pre b, ∃ s, t = pre ++ "." ++ s
  | _, .nil, _ => by simp [keysAux]
  | pre, .cons k v rest, hp => by
    intro t ht
    rw [keysAux] at ht
    simp only [if_neg hp, List.cons_append, List.mem_cons, List.mem_append] at ht
    rcases ht with rfl | ht | ht
    · exact ⟨k, rfl⟩
    · obtain ⟨s, hs⟩ :=
        keysVal_extends_path (pre ++ "." ++ k) v (string_append_dot_ne_empty _ _) t ht
      exact ⟨k ++ "." ++ s, by rw [hs]; simp [String.append_assoc]⟩
    · exact keysAux_extends_path pre rest hp t ht

end

/-- Membership of an entry in a bag puts its key token (and, for a nested
map, every token of the nested walk) into the bag's key tokens. -/
theorem keys_mem_of_entry : ∀ (b : GoBag) (k : String) (v : GoValue),
    (k, v) ∈ b.toList → k ∈ Keys b ∧ ∀ t ∈ keysVal k v, t ∈ Keys b
  | .nil, k, v => by simp [GoBag.toList]
  | .cons k₀ v₀ rest, k, v => by
    intro h
    rw [GoBag.toList, List.mem_cons] at h
    have hexp : Keys (GoBag.cons k₀ v₀ rest) =
        (k₀ :: keysVal k₀ v₀) ++ keysAux "" rest := by
      simp [Keys, keysAux]
    rcases h with h | h
    · injection h with hk hv
      subst hk; subst hv
      constructor
      · rw [hexp]; exact List.mem_append_left _ (List.mem_cons_self _ _)
      · intro t ht
        rw [hexp]
        exact List.mem_append_left _ (List.mem_cons_of_mem _ ht)
    · obtain ⟨h1, h2⟩ := keys_mem_of_entry rest k v h
      rw [Keys] at h1
      refine ⟨?_, fun t ht => ?_⟩
      · rw [hexp]; exact List.mem_append_right _ h1
      · rw [hexp]; exact List.mem_append_right _ (h2 t ht)

/-- C6: for every property map and every key whose value is a nested map,
flattening emits that key as a key token and emits every token of the
nested map's walk under that dotted path (each of which extends the path
by a dot, supplying the descendants' prefixed key tokens), while the value
tokens are exactly the renderings of the scalar leaves — a nested map
itself is never a value token. -/
theorem nested_map_key_value_tokens (m : Properties) (k : String) (inner : GoBag)
    (hmem : (k, GoValue.vMap inner) ∈ m.toList) :
    k ∈ Keys m ∧
    (∀ t ∈ keysAux k inner, t ∈ Keys m) ∧
    (k ≠ "" → ∀ t ∈ keysAux k inner, ∃ s, t = k ++ "." ++ s) ∧
    Values m = (leafBag m).map goRender ∧
    (∀ x ∈ leafBag m, x.isMap = false) := by
  obtain ⟨h1, h2⟩ := keys_mem_of_entry m k (GoValue.vMap inner) hmem
  exact ⟨h1, fun t ht => h2 t ht,
    fun hk t ht => keysAux_extends_path k inner hk t ht,
    valuesBag_eq_leaves m, leafBag_not_map m⟩

/-- C6 witness: a concrete two-level bag. -/
theorem nested_map_key_value_tokens_witness :
    let inner : GoBag := .cons "age" (.vInt 21) .nil
    let m : Properties := .cons "name" (.vString "foo") (.cons "meta" (.vMap inner) .nil)
    "meta" ∈ Keys m ∧
      (∀ t ∈ keysAux "meta" inner, t ∈ Keys m) ∧
      ("meta" ≠ "" → ∀ t ∈ keysAux "meta" inner, ∃ s, t = "meta" ++ "." ++ s) ∧
      Values m = (leafBag m).map goRender ∧
      (∀ x ∈ leafBag m, x.isMap = false) :=
  nested_map_key_value_tokens _ "meta" _ (List.Mem.tail _ (List.Mem.head _))

/-! ## C7 and C8: limit and snippet-window normalization -/

/-- Limit field of the normalized term-search arguments: only the
zero-default is applied. -/
theorem normalizeTermSearchArgs_limit (a : TermSearchArgs) :
    (normalizeTermSearchArgs a).Limit = if a.Limit = 0 then DefaultLimit else a.Limit := by
  simp only [normalizeTermSearchArgs]
  split <;> split <;> split <;> split <;> split <;> rfl

/-- Snippet token window of the normalized term-search arguments: a
negative window becomes 10, then anything above 64 clamps to 64. -/
theorem normalizeTermSearchArgs_tokens (a : TermSearchArgs) :
    (normalizeTermSearchArgs a).SnippetTokens =
      (fun t => if t > 64 then 64 else t)
        (if a.SnippetTokens < 0 then 10 else a.SnippetTokens) := by
  simp only [normalizeTermSearchArgs]
  split <;> split <;> split <;> split <;> split <;> rfl

/-- C7 counterexample: no ceiling bounds the effective limit of the two
read paths — for every candidate ceiling there is a caller limit whose
effective value exceeds it (the code only replaces a zero limit by
`DefaultLimit` and never clamps from above). -/
theorem no_hard_limit_ceiling :
    ¬ ∃ c : Int, (∀ l : Int, nodesEffectiveLimit l ≤ c) ∧
      (∀ a : TermSearchArgs, (normalizeTermSearchArgs a).Limit ≤ c) := by
  rintro ⟨c, h1, -⟩
  have h := h1 (max c 0 + 1)
  rw [nodesEffectiveLimit, if_neg (by omega)] at h
  omega

/-- C7 amended: on both read paths a caller limit of zero is replaced by
the fixed default cap 1000, and every non-zero caller limit is passed to
the query unchanged — no upper clamp exists. -/
theorem limit_zero_defaults_to_1000 (l : Int) (a : TermSearchArgs) (hl : l ≠ 0)
    (ha : a.Limit ≠ 0) :
    nodesEffectiveLimit 0 = 1000 ∧
    nodesEffectiveLimit l = l ∧
    (normalizeTermSearchArgs { a with Limit := 0 }).Limit = 1000 ∧
    (normalizeTermSearchArgs a).Limit = a.Limit := by
  refine ⟨rfl, ?_, ?_, ?_⟩
  · rw [nodesEffectiveLimit, if_neg hl]
  · rw [normalizeTermSearchArgs_limit]; rfl
  · rw [normalizeTermSearchArgs_limit, if_neg ha]

/-- C7 amended, witness at limit 5000. -/
theorem limit_zero_defaults_to_1000_witness :
    (5000 : Int) ≠ 0 ∧ nodesEffectiveLimit 5000 = 5000 ∧
      (normalizeTermSearchArgs ⟨"dog", 5000, 10, "<b>", "</b>"⟩).Limit = 5000 :=
  ⟨by decide,
   (limit_zero_defaults_to_1000 5000 ⟨"dog", 5000, 10, "<b>", "</b>"⟩
      (by decide) (by decide)).2.1,
   (limit_zero_defaults_to_1000 5000 ⟨"dog", 5000, 10, "<b>", "</b>"⟩
      (by decide) (by decide)).2.2.2⟩

/-- C8 counterexample: an unspecified snippet token window (the zero value
of the `SnippetTokens int` field) is passed through as 0, which is not in
the claimed interval `[1, 64]` — the 10-default only fires for negative
values. -/
theorem snippet_tokens_zero_not_defaulted :
    (normalizeTermSearchArgs ⟨"name", 1, 0, "<b>", "</b>"⟩).SnippetTokens = 0 ∧
    ¬(1 ≤ (normalizeTermSearchArgs ⟨"name", 1, 0, "<b>", "</b>"⟩).SnippetTokens) := by
  constructor
  · rfl
  · rw [normalizeTermSearchArgs_tokens]; decide

/-- C8 amended: the snippet token window is defaulted to 10 only when
negative and clamped to 64 from above, so the value passed to the snippet
function always lies in `[0, 64]`; an unspecified (zero) window is passed
through as 0 rather than defaulted to 10. -/
theorem snippet_tokens_bounds (a : TermSearchArgs) :
    0 ≤ (normalizeTermSearchArgs a).SnippetTokens ∧
    (normalizeTermSearchArgs a).SnippetTokens ≤ 64 ∧
    (a.SnippetTokens < 0 → (normalizeTermSearchArgs a).SnippetTokens = 10) ∧
    (a.SnippetTokens = 0 → (normalizeTermSearchArgs a).SnippetTokens = 0) ∧
    (0 < a.SnippetTokens → a.SnippetTokens ≤ 64 →
      (normalizeTermSearchArgs a).SnippetTokens = a.SnippetTokens) ∧
    (64 < a.SnippetTokens → (normalizeTermSearchArgs a).SnippetTokens = 64) := by
  rw [normalizeTermSearchArgs_tokens]
  dsimp only
  refine ⟨?_, ?_, ?_, ?_, ?_, ?_⟩ <;> split <;> split <;> intros <;> omega

/-- C8 amended, witness: a negative window defaults to 10, an oversized
window clamps to 64. -/
theorem snippet_tokens_bounds_witness :
    ((-3 : Int) < 0 ∧ (normalizeTermSearchArgs ⟨"x", 5, -3, "", ""⟩).SnippetTokens = 10) ∧
    ((64 : Int) < 100 ∧ (normalizeTermSearchArgs ⟨"x", 5, 100, "", ""⟩).SnippetTokens = 64) :=
  ⟨⟨by decide, (snippet_tokens_bounds ⟨"x", 5, -3, "", ""⟩).2.2.1 (by decide)⟩,
   ⟨by decide, (snippet_tokens_bounds ⟨"x", 5, 100, "", ""⟩).2.2.2.2.2 (by decide)⟩⟩

/-! ## C3: transactional batching -/

theorem upsertLoop_length : ∀ (ns : List Node) (st : DBState) (nodes : List Node)
    (st₁ : DBState), upsertLoop st ns = .ok (nodes, st₁) → nodes.length = ns.length := by
  intro ns
  induction ns with
  | nil =>
    intro st nodes st₁ h
    rw [upsertLoop] at h
    cases h
    rfl
  | cons n rest ih =>
    intro st nodes st₁ h
    rw [upsertLoop] at h
    cases hstep : upsertNodeStep st n with
    | error e => simp only [hstep] at h; cases h
    | ok p =>
      obtain ⟨node, stA⟩ := p
      simp only [hstep] at h
      cases hloop : upsertLoop stA rest with
      | error e => simp only [hloop] at h; cases h
      | ok q =>
        obtain ⟨nodes₂, stB⟩ := q
        simp only [hloop] at h
        cases h
        simp [ih _ _ _ hloop]

/-- C3: every `UpsertNodes` call is one transaction — on any error of any
record the committed state is exactly the state before the call (the whole
batch rolls back), and on success the call returns one written record per
input record, committing the state the batch produced. -/
theorem upsert_transactional (st : DBState) (ns : List Node) :
    (∀ e, (UpsertNodes st ns).1 = .error e → (UpsertNodes st ns).2 = st) ∧
    (∀ nodes, (UpsertNodes st ns).1 = .ok nodes →
      nodes.length = ns.length ∧ upsertLoop st ns = .ok (nodes, (UpsertNodes st ns).2)) := by
  constructor
  · intro e he
    cases h : upsertLoop st ns with
    | ok p => simp [UpsertNodes, h] at he
    | error e₂ => simp [UpsertNodes, h]
  · intro nodes hn
    cases h : upsertLoop st ns with
    | ok p =>
      obtain ⟨nodes₂, st₂⟩ := p
      simp only [UpsertNodes, h] at hn ⊢
      cases hn
      exact ⟨upsertLoop_length _ _ _ _ h, rfl⟩
    | error e₂ => simp [UpsertNodes, h] at hn

/-! ## C4: the encode/decode round trip -/

/-- Decoding of one marshalled object field back into a map entry. -/
def unmEntry (p : String × Json) : String × GoValue :=
  (p.1, jsonUnmarshalValue p.2)

theorem unmarshalFields_ofList : ∀ l : List (String × Json),
    jsonUnmarshalFields (JsonFields.ofList l) = GoBag.ofList (l.map unmEntry)
  | [] => rfl
  | (k, v) :: rest => by
    rw [JsonFields.ofList, jsonUnmarshalFields, List.map_cons, GoBag.ofList,
      unmarshalFields_ofList rest]
    rfl

theorem orderedInsert_map_unmEntry (x : String × Json) : ∀ l : List (String × Json),
    List.orderedInsert (fun a b => a.1 ≤ b.1) (unmEntry x) (l.map unmEntry) =
      (List.orderedInsert (fun a b => a.1 ≤ b.1) x l).map unmEntry
  | [] => rfl
  | y :: rest => by
    by_cases h : x.1 ≤ y.1
    · simp only [List.map_cons, List.orderedInsert, unmEntry, if_pos h, List.map_cons]
    · simp only [List.map_cons, List.orderedInsert, unmEntry, if_neg h, List.map_cons,
        List.map]
      rw [← orderedInsert_map_unmEntry x rest]
      rfl

/-- Decoding commutes with the key sort `json.Marshal` performs. -/
theorem sortEntries_map_unmEntry : ∀ l : List (String × Json),
    sortEntries (l.map unmEntry) = (sortFields l).map unmEntry
  | [] => rfl
  | x :: rest => by
    rw [List.map_cons, sortEntries, sortFields, List.insertionSort, List.insertionSort]
    rw [show List.insertionSort (fun a b : String × GoValue => a.1 ≤ b.1)
        (rest.map unmEntry) = sortEntries (rest.map unmEntry) from rfl,
      sortEntries_map_unmEntry rest]
    exact orderedInsert_map_unmEntry x _

mutual

theorem marshal_roundtrip_val : ∀ v : GoValue, encodableValue v = true →
    ∃ j, jsonMarshalValue v = .ok j ∧ jsonUnmarshalValue j = canonNormValue v
  | .vString s, _ => ⟨.jString s, rfl, rfl⟩
  | .vInt n, _ => ⟨.jNum n, rfl, rfl⟩
  | .vFloat n, _ => ⟨.jNum n, rfl, rfl⟩
  | .vBool b, _ => ⟨.jBool b, rfl, rfl⟩
  | .vNull, _ => ⟨.jNull, rfl, rfl⟩
  | .vMap m, h => by
    obtain ⟨fs, hfs, hmap⟩ := marshal_roundtrip_bag m h
    refine ⟨.jObj (.ofList (sortFields fs)), ?_, ?_⟩
    · rw [jsonMarshalValue, hfs]
    · rw [jsonUnmarshalValue, unmarshalFields_ofList, ← sortEntries_map_unmEntry,
        hmap, canonNormValue]
  | .vUnsupported tag r, h => by rw [encodableValue] at h; cases h

theorem marshal_roundtrip_bag : ∀ b : GoBag, encodableBag b = true →
    ∃ fs, jsonMarshalBag b = .ok fs ∧ fs.map unmEntry = canonNormEntries b
  | .nil, _ => ⟨[], rfl, rfl⟩
  | .cons k v rest, h => by
    rw [encodableBag, Bool.and_eq_true] at h
    obtain ⟨j, hj, hjv⟩ := marshal_roundtrip_val v h.1
    obtain ⟨fs, hfs, hmap⟩ := marshal_roundtrip_bag rest h.2
    refine ⟨(k, j) :: fs, ?_, ?_⟩
    · rw [jsonMarshalBag, hj, hfs]
    · rw [List.map_cons, hmap, canonNormEntries, unmEntry, hjv]

end

theorem bagEqNorm_ofList_perm {l₁ l₂ : List (String × GoValue)} (h : l₁.Perm l₂) :
    BagEqNorm (GoBag.ofList l₁) (GoBag.ofList l₂) := by
  induction h with
  | nil => exact .nil
  | cons x _ ih => exact .cons x.1 (.refl x.2) ih
  | swap x y l => exact .swap y.1 x.1 y.2 x.2 (GoBag.ofList l)
  | trans _ _ ih₁ ih₂ => exact .trans ih₁ ih₂

mutual

theorem valEqNorm_canon : ∀ v : GoValue, ValEqNorm (canonNormValue v) v
  | .vString _ => .refl _
  | .vInt n => .intFloat n
  | .vFloat _ => .refl _
  | .vBool _ => .refl _
  | .vNull => .refl _
  | .vMap m =>
    .map (.trans (bagEqNorm_ofList_perm (List.perm_insertionSort _ _))
      (bagEqNorm_canonEntries m))
  | .vUnsupported _ _ => .refl _

theorem bagEqNorm_canonEntries : ∀ b : GoBag,
    BagEqNorm (GoBag.ofList (canonNormEntries b)) b
  | .nil => .nil
  | .cons k v rest => .cons k (valEqNorm_canon v) (bagEqNorm_canonEntries rest)

end

/-- The canonical normalized form of a bag is structurally equal to the
bag up to numeric-type normalization. -/
theorem bagEqNorm_canon (b : GoBag) : BagEqNorm (canonNormBag b) b :=
  .trans (bagEqNorm_ofList_perm (List.perm_insertionSort _ _)) (bagEqNorm_canonEntries b)

/-- C4: for every encodable property bag `b`, decoding the encoded form of
`b` (`Properties.FromBytes` after `Properties.ToBytes`) succeeds and
yields exactly the canonically ordered, numerically normalized form of
`b`, which is structurally equal to `b` up to numeric-type normalization
(integer values become floating-point values; a map's entry order is not
observable). -/
theorem properties_roundtrip_normalized (b : Properties) (henc : encodableBag b = true) :
    ∃ j, Properties.ToBytes b = .ok j ∧
      Properties.FromBytes j = .ok (canonNormBag b) ∧
      BagEqNorm (canonNormBag b) b := by
  obtain ⟨fs, hfs, hmap⟩ := marshal_roundtrip_bag b henc
  refine ⟨.jObj (.ofList (sortFields fs)), ?_, ?_, bagEqNorm_canon b⟩
  · rw [Properties.ToBytes, jsonMarshalValue, hfs]
  · rw [Properties.FromBytes, unmarshalFields_ofList, ← sortEntries_map_unmEntry, hmap]
    rfl

/-- C4 witness: a bag with a string, an integer and a nested map. -/
theorem properties_roundtrip_normalized_witness :
    let b : Properties := .cons "name" (.vString "bar")
      (.cons "age" (.vInt 21) (.cons "meta" (.vMap (.cons "hair" (.vString "brown") .nil)) .nil))
    encodableBag b = true ∧
      ∃ j, Properties.ToBytes b = .ok j ∧
        Properties.FromBytes j = .ok (canonNormBag b) ∧
        BagEqNorm (canonNormBag b) b :=
  ⟨rfl, properties_roundtrip_normalized _ rfl⟩

/-! ## C9: the plain listing is an id-ordered prefix -/

theorem decodeNodes_ids_prefix : ∀ l : List NodeRow,
    ((decodeNodes l).1.map Node.ID) <+: (l.map NodeRow.id)
  | [] => List.prefix_rfl
  | r :: rest => by
    rw [decodeNodes]
    cases h : Properties.FromBytes r.properties with
    | ok p =>
      obtain ⟨t, ht⟩ := decodeNodes_ids_prefix rest
      exact ⟨t, by simp [ht]⟩
    | error e => exact List.nil_prefix

theorem applyLimit_prefix (n : Int) (rows : List NodeRow) :
    applyLimit n rows <+: rows := by
  rw [applyLimit]
  split
  · exact List.prefix_rfl
  · exact List.take_prefix _ _

/-- C9: the plain listing (`Store.Nodes`, limit only, no term) returns the
records in ascending id order — its ids form a prefix of the id-ordered
table scan, strictly increasing, with no ranking applied. -/
theorem nodes_listing_ordered_by_id (st : DBState) (args : NodesArgs) (hwf : WF st) :
    ((Nodes st args).1.map Node.ID) <+: (st.rows.map NodeRow.id) ∧
    List.Pairwise (· < ·) ((Nodes st args).1.map Node.ID) := by
  have h1 := decodeNodes_ids_prefix (nodesScan st args)
  have h2 : nodesScan st args <+: st.rows := applyLimit_prefix _ _
  have hpref : ((Nodes st args).1.map Node.ID) <+: (st.rows.map NodeRow.id) :=
    h1.trans (h2.map _)
  refine ⟨hpref, ?_⟩
  have hrows : List.Pairwise (· < ·) (st.rows.map NodeRow.id) :=
    List.pairwise_map.2 hwf.1
  exact List.Pairwise.sublist hpref.sublist hrows

/-- C9 witness: a two-row store. -/
theorem nodes_listing_ordered_by_id_witness :
    let st : DBState := ⟨[⟨1, "a", .jObj .fnil⟩, ⟨2, "b", .jObj .fnil⟩], [], 2⟩
    WF st ∧
      (((Nodes st ⟨0⟩).1.map Node.ID) <+: (st.rows.map NodeRow.id) ∧
        List.Pairwise (· < ·) ((Nodes st ⟨0⟩).1.map Node.ID)) :=
  ⟨by decide, nodes_listing_ordered_by_id _ ⟨0⟩ (by decide)⟩

/-! ## C1: upsert at an existing id -/

/-- Marshalling an encodable bag succeeds, the produced document is an
object, and decoding it yields the canonical normalized form. -/
theorem toBytes_total (b : Properties) (henc : encodableBag b = true) :
    ∃ j, Properties.ToBytes b = .ok j ∧
      Properties.FromBytes j = .ok (canonNormBag b) ∧ j.isObj = true := by
  obtain ⟨fs, hfs, hmap⟩ := marshal_roundtrip_bag b henc
  refine ⟨.jObj (.ofList (sortFields fs)), ?_, ?_, rfl⟩
  · rw [Properties.ToBytes, jsonMarshalValue, hfs]
  · rw [Properties.FromBytes, unmarshalFields_ofList, ← sortEntries_map_unmEntry, hmap]
    rfl

/-- A one-record call commits exactly the one step. -/
theorem upsertNodes_single (st : DBState) (n node : Node) (st₁ : DBState)
    (h : upsertNodeStep st n = .ok (node, st₁)) :
    UpsertNodes st [n] = (.ok [node], st₁) := by
  simp [UpsertNodes, upsertLoop, h]

/-- The conflict branch of the upsert: with a non-zero id already present,
the statement updates the row in place (fts and sequence untouched) and
returns the record at the preserved id with round-tripped properties. -/
theorem upsertNodeStep_update (st : DBState) (n : Node) (hz : n.ID ≠ 0)
    (hm : st.rows.any (fun r => r.id = n.ID) = true)
    (he : encodableBag n.Properties = true) :
    ∃ j, Properties.ToBytes n.Properties = .ok j ∧ j.isObj = true ∧
      upsertNodeStep st n = .ok (⟨n.ID, n.Label, canonNormBag n.Properties⟩,
        ⟨st.rows.map (fun r => if r.id = n.ID then ⟨n.ID, n.Label, j⟩ else r),
          st.fts, st.seq⟩) := by
  obtain ⟨j, hj, hdec, hobj⟩ := toBytes_total n.Properties he
  refine ⟨j, hj, hobj, ?_⟩
  rw [upsertNodeStep, hj]
  simp only [hdec, if_neg hz, hm, if_true]

/-- Number of table rows carrying the id. -/
def countId (rows : List NodeRow) (i : Nat) : Nat :=
  (rows.filter (fun r => r.id = i)).length

/-- Number of returned records carrying the id. -/
def countNodeId (ns : List Node) (i : Nat) : Nat :=
  (ns.filter (fun node => node.ID = i)).length

theorem countId_map_preserve (f : NodeRow → NodeRow) (hf : ∀ r, (f r).id = r.id) :
    ∀ (rows : List NodeRow) (i : Nat), countId (rows.map f) i = countId rows i := by
  intro rows i
  induction rows with
  | nil => rfl
  | cons a l ih =>
    rw [List.map_cons]
    by_cases h : a.id = i
    · have h2 : (f a).id = i := by rw [hf a]; exact h
      simp [countId, List.filter_cons, h, h2] at ih ⊢
      exact ih
    · have h2 : ¬((f a).id = i) := by rw [hf a]; exact h
      simp [countId, List.filter_cons, h, h2] at ih ⊢
      exact ih

theorem countId_eq_zero (rows : List NodeRow) (i : Nat) (h : ∀ r ∈ rows, r.id ≠ i) :
    countId rows i = 0 := by
  rw [countId, List.length_eq_zero, List.filter_eq_nil_iff]
  intro r hr
  simp [h r hr]

theorem countId_eq_one (rows : List NodeRow) (i : Nat)
    (hp : List.Pairwise (fun a b => a.id < b.id) rows)
    (hm : ∃ r ∈ rows, r.id = i) : countId rows i = 1 := by
  induction rows with
  | nil => obtain ⟨r, hr, _⟩ := hm; cases hr
  | cons a l ih =>
    rw [List.pairwise_cons] at hp
    by_cases h : a.id = i
    · have hz : countId l i = 0 :=
        countId_eq_zero l i (fun r hr => by have := hp.1 r hr; omega)
      simp [countId, List.filter_cons, h] at hz ⊢
      exact hz
    · obtain ⟨r, hr, hri⟩ := hm
      rcases List.mem_cons.1 hr with rfl | hr
      · exact absurd hri h
      · have h1 := ih hp.2 ⟨r, hr, hri⟩
        simp [countId, List.filter_cons, h] at h1 ⊢
        exact h1

/-- Decoded form of a stored row (total on object-typed properties). -/
def decodeRow (r : NodeRow) : Node :=
  ⟨r.id, r.label,
    match r.properties with
    | .jObj f => jsonUnmarshalFields f
    | _ => .nil⟩

theorem decodeNodes_total (l : List NodeRow) (h : ∀ r ∈ l, r.properties.isObj = true) :
    decodeNodes l = (l.map decodeRow, none) := by
  induction l with
  | nil => rfl
  | cons r rest ih =>
    have hr := h r (List.mem_cons_self _ _)
    cases hp : r.properties with
    | jObj f =>
      rw [decodeNodes, hp]
      simp only [Properties.FromBytes]
      rw [ih (fun x hx => h x (List.mem_cons_of_mem _ hx))]
      simp [decodeRow, hp]
    | jString s => rw [hp] at hr; cases hr
    | jNum m => rw [hp] at hr; cases hr
    | jBool b => rw [hp] at hr; cases hr
    | jNull => rw [hp] at hr; cases hr

theorem countNodeId_map_decodeRow (rows : List NodeRow) (i : Nat) :
    countNodeId (rows.map decodeRow) i = countId rows i := by
  induction rows with
  | nil => rfl
  | cons a l ih =>
    by_cases h : a.id = i
    · simp [countNodeId, countId, List.filter_cons, decodeRow, h] at ih ⊢
      exact ih
    · simp [countNodeId, countId, List.filter_cons, decodeRow, h] at ih ⊢
      exact ih

/-- C1: upserting a record with a non-zero id already in the store
replaces the stored row's label and properties while preserving the id:
the call returns the one record at that id (properties in round-tripped
form), the table's id sequence is unchanged, exactly one row carries the
id (and it holds the new label/properties), and a subsequent listing of a
store within the default cap contains exactly one record with that id. -/
theorem upsert_existing_id_replaces (st : DBState) (n : Node) (hwf : WF st)
    (hz : n.ID ≠ 0) (hm : st.rows.any (fun r => r.id = n.ID) = true)
    (he : encodableBag n.Properties = true) :
    ∃ j st₁,
      Properties.ToBytes n.Properties = .ok j ∧
      UpsertNodes st [n] = (.ok [⟨n.ID, n.Label, canonNormBag n.Properties⟩], st₁) ∧
      st₁.rows.map NodeRow.id = st.rows.map NodeRow.id ∧
      countId st₁.rows n.ID = 1 ∧
      (∀ r ∈ st₁.rows, r.id = n.ID → r = ⟨n.ID, n.Label, j⟩) ∧
      (st.rows.length ≤ 1000 → countNodeId (Nodes st₁ ⟨0⟩).1 n.ID = 1) := by
  obtain ⟨j, hj, hobj, hstep⟩ := upsertNodeStep_update st n hz hm he
  have hid : ∀ r : NodeRow,
      ((fun r : NodeRow => if r.id = n.ID then (⟨n.ID, n.Label, j⟩ : NodeRow) else r) r).id
        = r.id := by
    intro r; by_cases h : r.id = n.ID <;> simp [h]
  have hmem : ∃ r ∈ st.rows, r.id = n.ID := by
    obtain ⟨r, hr, hp⟩ := List.any_eq_true.1 hm
    exact ⟨r, hr, of_decide_eq_true hp⟩
  have hcount : countId (st.rows.map
      (fun r => if r.id = n.ID then (⟨n.ID, n.Label, j⟩ : NodeRow) else r)) n.ID = 1 := by
    rw [countId_map_preserve _ hid]
    exact countId_eq_one _ _ hwf.1 hmem
  refine ⟨j, _, hj, upsertNodes_single st n _ _ hstep, ?_, hcount, ?_, ?_⟩
  · show (st.rows.map _).map NodeRow.id = _
    rw [List.map_map]
    exact List.map_congr_left (fun r _ => hid r)
  · intro r hr hri
    obtain ⟨r₀, hr₀, rfl⟩ := List.mem_map.1 hr
    by_cases h : r₀.id = n.ID
    · simp [h]
    · rw [hid r₀] at hri; exact absurd hri h
  · intro hlen
    set rows₁ := st.rows.map
      (fun r => if r.id = n.ID then (⟨n.ID, n.Label, j⟩ : NodeRow) else r) with hrows₁
    have hobj₁ : ∀ r ∈ rows₁, r.properties.isObj = true := by
      intro r hr
      obtain ⟨r₀, hr₀, rfl⟩ := List.mem_map.1 hr
      by_cases h : r₀.id = n.ID
      · simp [h, hobj]
      · simpa [h] using (hwf.2 r₀ hr₀).2.2
    have hlen₁ : rows₁.length ≤ 1000 := by
      rw [hrows₁, List.length_map]; exact hlen
    have hscan : nodesScan ⟨rows₁, st.fts, st.seq⟩ ⟨0⟩ = rows₁ := by
      show applyLimit (nodesEffectiveLimit 0) rows₁ = rows₁
      rw [show nodesEffectiveLimit 0 = 1000 from rfl, applyLimit, if_neg (by omega)]
      exact List.take_of_length_le (by exact_mod_cast hlen₁)
    show countNodeId (decodeNodes (nodesScan ⟨rows₁, st.fts, st.seq⟩ ⟨0⟩)).1 n.ID = 1
    rw [hscan, decodeNodes_total rows₁ hobj₁]
    rw [show ((rows₁.map decodeRow, (none : Option String)).1) = rows₁.map decodeRow from rfl]
    rw [countNodeId_map_decodeRow]
    exact hcount

/-- C1 witness: replacing the preloaded node 1. -/
theorem upsert_existing_id_replaces_witness :
    let st : DBState := ⟨[⟨1, "person", .jObj (.fcons "age" (.jNum 4) .fnil)⟩], [], 1⟩
    let n : Node := ⟨1, "person", .cons "age" (.vInt 21) .nil⟩
    WF st ∧
      ∃ j st₁,
        Properties.ToBytes n.Properties = .ok j ∧
        UpsertNodes st [n] = (.ok [⟨n.ID, n.Label, canonNormBag n.Properties⟩], st₁) ∧
        st₁.rows.map NodeRow.id = st.rows.map NodeRow.id ∧
        countId st₁.rows n.ID = 1 ∧
        (∀ r ∈ st₁.rows, r.id = n.ID → r = ⟨n.ID, n.Label, j⟩) ∧
        (st.rows.length ≤ 1000 → countNodeId (Nodes st₁ ⟨0⟩).1 n.ID = 1) :=
  ⟨by decide, upsert_existing_id_replaces _ _ (by decide) (by decide) (by decide) (by decide)⟩

/-! ## C2: server-generated identities -/

theorem toBytes_isObj (b : Properties) (j : Json) (h : Properties.ToBytes b = .ok j) :
    j.isObj = true := by
  rw [Properties.ToBytes, jsonMarshalValue] at h
  cases h2 : jsonMarshalBag b with
  | ok fs => rw [h2] at h; cases h; rfl
  | error e => rw [h2] at h; cases h

theorem le_maxRowId : ∀ (rows : List NodeRow) (r : NodeRow), r ∈ rows → r.id ≤ maxRowId rows := by
  intro rows
  induction rows with
  | nil => intro r hr; cases hr
  | cons a l ih =>
    intro r hr
    rcases List.mem_cons.1 hr with rfl | hr
    · simp [maxRowId, List.foldr]
    · have := ih r hr
      simp only [maxRowId, List.foldr] at this ⊢
      omega

theorem maxRowId_le (rows : List NodeRow) (s : Nat) (h : ∀ r ∈ rows, r.id ≤ s) :
    maxRowId rows ≤ s := by
  induction rows with
  | nil => simp [maxRowId]
  | cons a l ih =>
    have h1 := h a (List.mem_cons_self _ _)
    have h2 := ih (fun r hr => h r (List.mem_cons_of_mem _ hr))
    simp only [maxRowId, List.foldr] at h2 ⊢
    omega

theorem mem_insertSorted (x : NodeRow) : ∀ (l : List NodeRow) (r : NodeRow),
    r ∈ insertSorted x l → r = x ∨ r ∈ l := by
  intro l
  induction l with
  | nil => intro r hr; rw [insertSorted] at hr; rcases List.mem_singleton.1 hr with rfl; exact .inl rfl
  | cons y ys ih =>
    intro r hr
    rw [insertSorted] at hr
    split at hr
    · rcases List.mem_cons.1 hr with rfl | hr
      · exact .inl rfl
      · exact .inr hr
    · rcases List.mem_cons.1 hr with rfl | hr
      · exact .inr (List.mem_cons_self _ _)
      · rcases ih r hr with h | h
        · exact .inl h
        · exact .inr (List.mem_cons_of_mem _ h)

theorem pairwise_insertSorted (x : NodeRow) : ∀ l : List NodeRow,
    List.Pairwise (fun a b => a.id < b.id) l → (∀ r ∈ l, r.id ≠ x.id) →
    List.Pairwise (fun a b => a.id < b.id) (insertSorted x l) := by
  intro l
  induction l with
  | nil => intro _ _; simp [insertSorted]
  | cons y ys ih =>
    intro hp hx
    rw [List.pairwise_cons] at hp
    rw [insertSorted]
    split
    · rename_i hlt
      rw [List.pairwise_cons]
      refine ⟨?_, List.pairwise_cons.2 hp⟩
      intro z hz
      rcases List.mem_cons.1 hz with rfl | hz
      · exact hlt
      · exact lt_trans hlt (hp.1 z hz)
    · rename_i hge
      have hyx : y.id < x.id := by
        have := hx y (List.mem_cons_self _ _)
        omega
      rw [List.pairwise_cons]
      refine ⟨?_, ih hp.2 (fun r hr => hx r (List.mem_cons_of_mem _ hr))⟩
      intro z hz
      rcases mem_insertSorted x ys z hz with rfl | hz
      · exact hyx
      · exact hp.1 z hz

/-- The unassigned-id branch of the upsert: with id 0 the engine inserts
at the AUTOINCREMENT id, the insert trigger adds the comma-joined token
fields to the FTS table, and the sequence advances. -/
theorem upsertNodeStep_insert0 (st : DBState) (n : Node) (hz : n.ID = 0)
    (he : encodableBag n.Properties = true) :
    ∃ j, Properties.ToBytes n.Properties = .ok j ∧ j.isObj = true ∧
      Properties.FromBytes j = .ok (canonNormBag n.Properties) ∧
      upsertNodeStep st n = .ok (⟨nextAutoId st, n.Label, canonNormBag n.Properties⟩,
        ⟨insertSorted ⟨nextAutoId st, n.Label, j⟩ st.rows,
          st.fts ++ [⟨nextAutoId st, n.Label,
            joinSep "," (commonKeys (canonNormBag n.Properties)),
            joinSep "," (commonValues (canonNormBag n.Properties))⟩],
          max st.seq (nextAutoId st)⟩) := by
  obtain ⟨j, hj, hdec, hobj⟩ := toBytes_total n.Properties he
  refine ⟨j, hj, hobj, hdec, ?_⟩
  rw [upsertNodeStep, hj]
  simp only [hdec, if_pos hz, jsonExtractKeys, jsonExtractValues]

/-- Insertion of a fresh positive id keeps the state well-formed. -/
theorem WF_insert (st : DBState) (newId : Nat) (lab : String) (props : Json)
    (fts₂ : List FtsRow) (hwf : WF st) (hobj : props.isObj = true) (hpos : 0 < newId)
    (hfresh : ∀ r ∈ st.rows, r.id ≠ newId) :
    WF ⟨insertSorted ⟨newId, lab, props⟩ st.rows, fts₂, max st.seq newId⟩ := by
  refine ⟨pairwise_insertSorted _ _ hwf.1 hfresh, ?_⟩
  intro r hr
  rcases mem_insertSorted _ _ _ hr with rfl | hr
  · refine ⟨hpos, ?_, hobj⟩
    show newId ≤ max st.seq newId
    omega
  · obtain ⟨h1, h2, h3⟩ := hwf.2 r hr
    refine ⟨h1, ?_, h3⟩
    show r.id ≤ max st.seq newId
    omega

/-- In-place replacement of the row at an existing id keeps the state
well-formed. -/
theorem WF_update (st : DBState) (i : Nat) (lab : String) (props : Json)
    (fts₂ : List FtsRow) (hwf : WF st) (hobj : props.isObj = true) (hpos : 0 < i)
    (hle : i ≤ st.seq) :
    WF ⟨st.rows.map (fun r => if r.id = i then ⟨i, lab, props⟩ else r), fts₂, st.seq⟩ := by
  have hid : ∀ r : NodeRow,
      ((fun r : NodeRow => if r.id = i then (⟨i, lab, props⟩ : NodeRow) else r) r).id = r.id := by
    intro r; by_cases hh : r.id = i <;> simp [hh]
  constructor
  · rw [List.pairwise_map]
    refine hwf.1.imp ?_
    intro a b hab
    rw [hid a, hid b]
    exact hab
  · intro r hr
    obtain ⟨r₀, hr₀, rfl⟩ := List.mem_map.1 hr
    obtain ⟨h1, h2, h3⟩ := hwf.2 r₀ hr₀
    by_cases hh : r₀.id = i
    · simp only [hh, if_true]
      exact ⟨hpos, hle, hobj⟩
    · simp only [if_neg hh]
      exact ⟨h1, h2, h3⟩

/-- A successful upsert step preserves well-formedness and never lowers
the sequence. -/
theorem upsertNodeStep_WF (st : DBState) (n node : Node) (st₁ : DBState) (hwf : WF st)
    (h : upsertNodeStep st n = .ok (node, st₁)) : WF st₁ ∧ st.seq ≤ st₁.seq := by
  rw [upsertNodeStep] at h
  have hmax : maxRowId st.rows ≤ st.seq :=
    maxRowId_le _ _ (fun r hr => (hwf.2 r hr).2.1)
  split at h
  · cases h
  · rename_i props hT
    have hPo : props.isObj = true := toBytes_isObj _ _ hT
    split at h
    · cases h
    · rename_i decoded hD
      split at h
      · -- id 0: fresh insert at the AUTOINCREMENT id
        split at h
        · rename_i ks vs hK hV
          cases h
          have hfresh : ∀ r ∈ st.rows, r.id ≠ nextAutoId st := by
            intro r hr
            have h1 := le_maxRowId st.rows r hr
            rw [nextAutoId]
            omega
          refine ⟨WF_insert st _ _ _ _ hwf hPo (by rw [nextAutoId]; omega) hfresh, ?_⟩
          show st.seq ≤ max st.seq (nextAutoId st)
          omega
        · cases h
        · cases h
      · -- explicit id
        rename_i hz
        split at h
        · -- conflict: update in place
          rename_i hA
          cases h
          obtain ⟨r, hr, hp⟩ := List.any_eq_true.1 hA
          have hri : r.id = n.ID := of_decide_eq_true hp
          obtain ⟨h1, h2, _⟩ := hwf.2 r hr
          refine ⟨WF_update st n.ID _ _ _ hwf hPo (by omega) (by omega), le_refl _⟩
        · -- no conflict: fresh insert at the caller id
          rename_i hA
          split at h
          · rename_i ks vs hK hV
            cases h
            have hfresh : ∀ r ∈ st.rows, r.id ≠ n.ID := by
              intro r hr hcon
              exact hA (List.any_eq_true.2 ⟨r, hr, by simp [hcon]⟩)
            refine ⟨WF_insert st n.ID _ _ _ hwf hPo (by omega) hfresh, ?_⟩
            show st.seq ≤ max st.seq n.ID
            omega
          · cases h
          · cases h

theorem upsertLoop_WF : ∀ (ns : List Node) (st : DBState) (nodes : List Node)
    (st₁ : DBState), WF st → upsertLoop st ns = .ok (nodes, st₁) →
    WF st₁ ∧ st.seq ≤ st₁.seq := by
  intro ns
  induction ns with
  | nil =>
    intro st nodes st₁ hwf h
    rw [upsertLoop] at h
    cases h
    exact ⟨hwf, le_refl _⟩
  | cons n rest ih =>
    intro st nodes st₁ hwf h
    rw [upsertLoop] at h
    cases hstep : upsertNodeStep st n with
    | error e => simp only [hstep] at h; cases h
    | ok p =>
      obtain ⟨node, stA⟩ := p
      simp only [hstep] at h
      cases hloop : upsertLoop stA rest with
      | error e => simp only [hloop] at h; cases h
      | ok q =>
        obtain ⟨nodes₂, stB⟩ := q
        simp only [hloop] at h
        cases h
        obtain ⟨hwfA, hseqA⟩ := upsertNodeStep_WF st n node stA hwf hstep
        obtain ⟨hwfB, hseqB⟩ := ih stA nodes₂ _ hwfA hloop
        exact ⟨hwfB, le_trans hseqA hseqB⟩

theorem applyOp_WF (st : DBState) (op : Op) (hwf : WF st) :
    WF (applyOp st op) ∧ st.seq ≤ (applyOp st op).seq := by
  cases op with
  | upsert ns =>
    show WF (UpsertNodes st ns).2 ∧ st.seq ≤ (UpsertNodes st ns).2.seq
    cases h : upsertLoop st ns with
    | ok p =>
      obtain ⟨nodes, st₁⟩ := p
      simp only [UpsertNodes, h]
      exact upsertLoop_WF ns st nodes st₁ hwf h
    | error e =>
      simp only [UpsertNodes, h]
      exact ⟨hwf, le_refl _⟩
  | delete i =>
    refine ⟨⟨?_, ?_⟩, le_refl _⟩
    · exact List.Pairwise.sublist (List.filter_sublist _) hwf.1
    · intro r hr
      exact hwf.2 r (List.mem_of_mem_filter hr)

theorem WF_emptyDB : WF emptyDB := by
  constructor
  · exact List.Pairwise.nil
  · intro r hr; cases hr

theorem runOps_WF : ∀ (ops : List Op) (st : DBState), WF st →
    WF (runOps st ops) ∧ st.seq ≤ (runOps st ops).seq := by
  intro ops
  induction ops with
  | nil => intro st hwf; exact ⟨hwf, le_refl _⟩
  | cons op rest ih =>
    intro st hwf
    obtain ⟨hwf₁, hseq₁⟩ := applyOp_WF st op hwf
    obtain ⟨hwf₂, hseq₂⟩ := ih (applyOp st op) hwf₁
    exact ⟨hwf₂, le_trans hseq₁ hseq₂⟩

/-- Every id ever present while running a trace is bounded by the final
sequence value: `DELETE` never lowers the sequence, so a freed id stays
recorded. -/
theorem usedIds_le_seq : ∀ (ops : List Op) (st : DBState), WF st →
    ∀ i ∈ usedIds st ops, i ≤ (runOps st ops).seq := by
  intro ops
  induction ops with
  | nil =>
    intro st hwf i hi
    rw [usedIds] at hi
    obtain ⟨r, hr, rfl⟩ := List.mem_map.1 hi
    exact (hwf.2 r hr).2.1
  | cons op rest ih =>
    intro st hwf i hi
    rw [usedIds, List.mem_append] at hi
    obtain ⟨hwf₁, hseq₁⟩ := applyOp_WF st op hwf
    rcases hi with hi | hi
    · obtain ⟨r, hr, rfl⟩ := List.mem_map.1 hi
      have h1 := (hwf.2 r hr).2.1
      have h2 := (runOps_WF rest (applyOp st op) hwf₁).2
      calc r.id ≤ st.seq := h1
        _ ≤ (applyOp st op).seq := hseq₁
        _ ≤ (runOps (applyOp st op) rest).seq := h2
    · exact ih (applyOp st op) hwf₁ i hi

/-- A batch of unassigned-id records is assigned the consecutive run of
ids right above the current sequence. -/
theorem upsertLoop_allZero : ∀ (ns : List Node) (st : DBState), WF st →
    (∀ n ∈ ns, n.ID = 0 ∧ encodableBag n.Properties = true) →
    ∃ nodes st₁, upsertLoop st ns = .ok (nodes, st₁) ∧
      nodes.map Node.ID = List.range' (st.seq + 1) ns.length ∧
      st₁.seq = st.seq + ns.length ∧ WF st₁ := by
  intro ns
  induction ns with
  | nil =>
    intro st hwf _
    exact ⟨[], st, rfl, rfl, by simp, hwf⟩
  | cons n rest ih =>
    intro st hwf hall
    have hn := hall n (List.mem_cons_self _ _)
    obtain ⟨j, hj, hobj, _, hstep⟩ := upsertNodeStep_insert0 st n hn.1 hn.2
    have hauto : nextAutoId st = st.seq + 1 := by
      have : maxRowId st.rows ≤ st.seq :=
        maxRowId_le _ _ (fun r hr => (hwf.2 r hr).2.1)
      rw [nextAutoId]
      omega
    obtain ⟨hwfA, _⟩ := upsertNodeStep_WF st n _ _ hwf hstep
    obtain ⟨nodes, st₁, hloop, hids, hseq₁, hwf₁⟩ :=
      ih _ hwfA (fun m hm => hall m (List.mem_cons_of_mem _ hm))
    have hseqA : (max st.seq (nextAutoId st)) = st.seq + 1 := by omega
    refine ⟨⟨nextAutoId st, n.Label, canonNormBag n.Properties⟩ :: nodes, st₁, ?_, ?_, ?_, hwf₁⟩
    · rw [upsertLoop]
      simp only [hstep, hloop]
    · rw [List.map_cons, hids, List.length_cons]
      show nextAutoId st :: List.range' (max st.seq (nextAutoId st) + 1) rest.length =
        List.range' (st.seq + 1) (rest.length + 1)
      rw [hseqA, hauto, List.range'_succ]
    · rw [hseq₁, List.length_cons]
      show max st.seq (nextAutoId st) + rest.length = st.seq + (rest.length + 1)
      omega

/-- C2: upserting a batch of records whose ids are all 0 over any state
reachable by upserts and deletes from the empty store assigns the
consecutive server-generated ids right above the sequence: strictly
increasing across the batch, and never equal to any id that was ever
present earlier in the trace (even one freed by a delete).  In
particular two id-0 records in one call obtain two distinct increasing
ids. -/
theorem upsert_unassigned_ids (ops : List Op) (ns : List Node)
    (hall : ∀ n ∈ ns, n.ID = 0 ∧ encodableBag n.Properties = true) :
    ∃ nodes st₁,
      UpsertNodes (runOps emptyDB ops) ns = (.ok nodes, st₁) ∧
      nodes.map Node.ID = List.range' ((runOps emptyDB ops).seq + 1) ns.length ∧
      List.Pairwise (· < ·) (nodes.map Node.ID) ∧
      (∀ i ∈ nodes.map Node.ID, i ∉ usedIds emptyDB ops) := by
  have hwf : WF (runOps emptyDB ops) := (runOps_WF ops emptyDB WF_emptyDB).1
  obtain ⟨nodes, st₁, hloop, hids, hseq, hwf₁⟩ :=
    upsertLoop_allZero ns (runOps emptyDB ops) hwf hall
  refine ⟨nodes, st₁, ?_, hids, ?_, ?_⟩
  · simp only [UpsertNodes, hloop]
  · rw [hids]; exact List.pairwise_lt_range' _ _
  · intro i hi hmem
    have h1 : i ≤ (runOps emptyDB ops).seq := usedIds_le_seq ops emptyDB WF_emptyDB i hmem
    rw [hids] at hi
    obtain ⟨k, _, rfl⟩ := List.mem_range'.1 hi
    omega

/-- C2 witness: after two inserts and a delete, a two-record id-0 batch
obtains the fresh increasing ids 3 and 4; the deleted id 2 is not
reused. -/
theorem upsert_unassigned_ids_witness :
    let ops : List Op := [.upsert [⟨0, "person", .nil⟩, ⟨0, "person", .cons "age" (.vInt 21) .nil⟩],
      .delete 2]
    let ns : List Node := [⟨0, "dog", .cons "name" (.vString "socks") .nil⟩, ⟨0, "cat", .nil⟩]
    (∀ n ∈ ns, n.ID = 0 ∧ encodableBag n.Properties = true) ∧
      List.range' ((runOps emptyDB ops).seq + 1) ns.length = [3, 4] ∧
      (∃ nodes st₁,
        UpsertNodes (runOps emptyDB ops) ns = (.ok nodes, st₁) ∧
        nodes.map Node.ID = List.range' ((runOps emptyDB ops).seq + 1) ns.length ∧
        List.Pairwise (· < ·) (nodes.map Node.ID) ∧
        (∀ i ∈ nodes.map Node.ID, i ∉ usedIds emptyDB ops)) :=
  ⟨by decide, by decide, upsert_unassigned_ids _ _ (by decide)⟩

/-! ## C10: the lexical index stores comma-joined tokens, not the
flattened form -/

/-- C10: a record inserted through the unassigned-id path gets its FTS row
populated by the registered SQL functions `json_extract_keys` /
`json_extract_values`, i.e. the decoded bag's tokens joined with commas in
map-iteration order; `FlattenMAP` joins the sorted tokens with single
spaces, so for every bag with two or more key tokens (resp. value tokens)
the indexed string differs from the flattened string, whatever iteration
order the runtime picks. -/
theorem fts_insert_comma_joined_ne_flatten (st : DBState) (n : Node) (hz : n.ID = 0)
    (he : encodableBag n.Properties = true) :
    ∃ j node st₁,
      Properties.ToBytes n.Properties = .ok j ∧
      UpsertNodes st [n] = (.ok [node], st₁) ∧
      jsonExtractKeys j = .ok (joinSep "," (commonKeys (canonNormBag n.Properties))) ∧
      jsonExtractValues j = .ok (joinSep "," (commonValues (canonNormBag n.Properties))) ∧
      st₁.fts = st.fts ++ [⟨node.ID, n.Label,
        joinSep "," (commonKeys (canonNormBag n.Properties)),
        joinSep "," (commonValues (canonNormBag n.Properties))⟩] ∧
      (∀ l, l.Perm (commonKeys (canonNormBag n.Properties)) → 2 ≤ l.length →
        joinSep "," l ≠ (FlattenMAP (canonNormBag n.Properties)).1) ∧
      (∀ l, l.Perm (commonValues (canonNormBag n.Properties)) → 2 ≤ l.length →
        joinSep "," l ≠ (FlattenMAP (canonNormBag n.Properties)).2) := by
  obtain ⟨j, hj, hobj, hdec, hstep⟩ := upsertNodeStep_insert0 st n hz he
  refine ⟨j, ⟨nextAutoId st, n.Label, canonNormBag n.Properties⟩, _, hj,
    upsertNodes_single st n _ _ hstep, ?_, ?_, rfl, ?_, ?_⟩
  · simp only [jsonExtractKeys, hdec]
  · simp only [jsonExtractValues, hdec]
  · intro l hperm hlen
    exact joinComma_ne_joinSpace_sorted hperm hlen
  · intro l hperm hlen
    exact joinComma_ne_joinSpace_sorted hperm hlen

/-- C10 witness: a fresh insert with a two-key bag. -/
theorem fts_insert_comma_joined_ne_flatten_witness :
    let st : DBState := ⟨[], [], 0⟩
    let n : Node := ⟨0, "person", .cons "name" (.vString "bar") (.cons "age" (.vInt 21) .nil)⟩
    n.ID = 0 ∧ encodableBag n.Properties = true ∧
      ∃ j node st₁,
        Properties.ToBytes n.Properties = .ok j ∧
        UpsertNodes st [n] = (.ok [node], st₁) ∧
        jsonExtractKeys j = .ok (joinSep "," (commonKeys (canonNormBag n.Properties))) ∧
        jsonExtractValues j = .ok (joinSep "," (commonValues (canonNormBag n.Properties))) ∧
        st₁.fts = st.fts ++ [⟨node.ID, n.Label,
          joinSep "," (commonKeys (canonNormBag n.Properties)),
          joinSep "," (commonValues (canonNormBag n.Properties))⟩] ∧
        (∀ l, l.Perm (commonKeys (canonNormBag n.Properties)) → 2 ≤ l.length →
          joinSep "," l ≠ (FlattenMAP (canonNormBag n.Properties)).1) ∧
        (∀ l, l.Perm (commonValues (canonNormBag n.Properties)) → 2 ≤ l.length →
          joinSep "," l ≠ (FlattenMAP (canonNormBag n.Properties)).2) :=
  ⟨rfl, rfl, fts_insert_comma_joined_ne_flatten _ _ rfl rfl⟩

/-- C3 witness: a batch whose second record has an unencodable property
value errors and leaves the preloaded store untouched; a good batch
returns one record per input. -/
theorem upsert_transactional_witness :
    let st : DBState := ⟨[⟨1, "person", .jObj (.fcons "name" (.jString "foo") .fnil)⟩], [], 1⟩
    let bad : List Node := [⟨0, "person", .cons "name" (.vString "bar") .nil⟩,
      ⟨0, "oops", .cons "ch" (.vUnsupported "chan int" "0xc42") .nil⟩]
    let good : List Node := [⟨0, "person", .cons "name" (.vString "bar") .nil⟩]
    (UpsertNodes st bad).1 = .error "json: unsupported type: chan int" ∧
      (UpsertNodes st bad).2 = st ∧
      ∃ nodes, (UpsertNodes st good).1 = .ok nodes ∧ nodes.length = 1 := by
  refine ⟨rfl, ?_, ?_⟩
  · exact (upsert_transactional
      ⟨[⟨1, "person", .jObj (.fcons "name" (.jString "foo") .fnil)⟩], [], 1⟩
      [⟨0, "person", .cons "name" (.vString "bar") .nil⟩,
        ⟨0, "oops", .cons "ch" (.vUnsupported "chan int" "0xc42") .nil⟩]).1
      "json: unsupported type: chan int" rfl
  · exact ⟨[⟨2, "person", .cons "name" (.vString "bar") .nil⟩], rfl,
      ((upsert_transactional
        ⟨[⟨1, "person", .jObj (.fcons "name" (.jString "foo") .fnil)⟩], [], 1⟩
        [⟨0, "person", .cons "name" (.vString "bar") .nil⟩]).2
        [⟨2, "person", .cons "name" (.vString "bar") .nil⟩] rfl).1⟩


end EdgeDB
